import Mathlib

/-!
# Verification of the geisten binary-neural-network core

Shallow embedding of `src/geisten.h` (a header-only C library for binary
neural networks) together with theorems checking the natural-language
specification against it.

Conventions of the embedding:
* C `unsigned long long` words are natural numbers; where the 64-bit width
  matters the operations mask with `2 ^ 64 - 1` exactly as the C code does
  (`~` on a 64-bit word is modelled as xor with `2 ^ 64 - 1`).
* C `int` / `int8_t` / `int16_t` scalars are integers (`ℤ`); C signed
  arithmetic within range is plain integer arithmetic, and C `/` on `int`
  is truncated division `Int.tdiv`.
* Arrays passed by pointer are total maps `ℕ → _`; an in-place mutating
  loop becomes a function from the initial map to the final map, defined by
  recursion on the number of executed iterations (iteration `n` is applied
  outermost, matching the C loop order `i = 0, 1, ...`).
-/

/-- Helper for `popcount64`: number of set bits among the low `k` bits of
`w`, by repeated division by 2. -/
def popcountAux : ℕ → ℕ → ℕ
  | 0, _ => 0
  | k + 1, w => w % 2 + popcountAux k (w / 2)

/-- The hardware population count `__builtin_popcountll` behind the
`POPCOUNT` macro of `src/geisten.h`: the number of set bits of a 64-bit
word, i.e. among bit positions `0 ≤ b < 64`. -/
def popcount64 (w : ℕ) : ℕ := popcountAux 64 w

/-- The body of `popcount_soft` from `src/geisten.h`: Brian Kernighan's
bit-clearing loop `for (; x != 0; x &= x - 1) c++;`. -/
def popcount_soft_loop (x : ℕ) : ℕ :=
  if h : x = 0 then 0 else popcount_soft_loop (x &&& (x - 1)) + 1
termination_by x
decreasing_by
  have h1 : x &&& (x - 1) ≤ x - 1 := Nat.and_le_right
  omega

/-- `popcount_soft` from `src/geisten.h`. Its C parameter has type
`unsigned` (32 bits), so the argument is reduced modulo `2 ^ 32` on entry
before the Kernighan loop runs. -/
def popcount_soft (x : ℕ) : ℕ := popcount_soft_loop (x % 2 ^ 32)

/-- C bitwise complement `~w` of a 64-bit word: xor with the all-ones
word `2 ^ 64 - 1`. -/
def wordNot (w : ℕ) : ℕ := w ^^^ (2 ^ 64 - 1)

/-- The set-branch of the `BINARIZE` macro: `b | (1LLU << off)`. -/
def setBit64 (w off : ℕ) : ℕ := w ||| (1 <<< off)

/-- The clear-branch of the `BINARIZE` macro: `b & ~(1LLU << off)`. -/
def clearBit64 (w off : ℕ) : ℕ := w &&& wordNot (1 <<< off)

/-- One execution of `BINARIZE_POS(r, i, t, v)` from `src/geisten.h`,
with the comparison `v > t` already decided to the boolean `v`:
word `i / 64` of the array gets bit `i % 64` set (true) or cleared
(false); all other words are untouched. -/
def writeBit (r : ℕ → ℕ) (i : ℕ) (v : Bool) : ℕ → ℕ :=
  fun k =>
    if k = i / 64 then
      (if v then setBit64 (r k) (i % 64) else clearBit64 (r k) (i % 64))
    else r k

/-- `BIT_TEST_ARRAY(arr, pos)` from `src/geisten.h`: bit `pos % 64` of
word `pos / 64`.  (The C macro's mask literal is `1 << pos` with an `int`
`1`; it is modelled as the intended mathematical bit test.) -/
def bitTestArray (arr : ℕ → ℕ) (pos : ℕ) : Bool :=
  (arr (pos / 64)).testBit (pos % 64)

/-- `BIT2SIGN(b, i)` from `src/geisten.h`:
`2 * BIT_TEST_ARRAY(b, i) - 1`, i.e. `+1` for a set bit and `-1` for a
clear bit. -/
def bit2sign (b : ℕ → ℕ) (i : ℕ) : ℤ :=
  2 * (if bitTestArray b i then 1 else 0) - 1

/-- `rprelu` from `src/geisten.h`:
`(x - gamma) * ((x > gamma) + (x <= gamma) * beta) + zeta`, with the C
boolean-to-int results modelled as 0/1 integers. -/
def rprelu (x beta gamma zeta : ℤ) : ℤ :=
  (x - gamma) * ((if x > gamma then 1 else 0) + (if x ≤ gamma then 1 else 0) * beta) + zeta

/-- `rprelu_derived` from `src/geisten.h`:
`(x > gamma) + (x <= gamma) * beta`. -/
def rprelu_derived (x beta gamma : ℤ) : ℤ :=
  (if x > gamma then 1 else 0) + (if x ≤ gamma then 1 else 0) * beta

/-- The loop of `binarize` from `src/geisten.h` after `n` iterations:
iteration `i` executes `BINARIZE_POS(result, i, level, a[i])`, i.e.
writes bit `i` according to `a[i] > level`. -/
def binarizeLoop : ℕ → (ℕ → ℤ) → ℤ → (ℕ → ℕ) → (ℕ → ℕ)
  | 0, _, _, r => r
  | n + 1, a, t, r => writeBit (binarizeLoop n a t r) n (decide (a n > t))

/-- `binarize` from `src/geisten.h`. Its C `level` parameter has type
`uint8_t`, so the caller's argument is reduced modulo 256 (to `[0, 255]`)
on entry; the loop then compares each `int8_t` element `a[i]` against
that converted value (both sides promoted to `int`). -/
def binarize (size : ℕ) (a : ℕ → ℤ) (level : ℤ) (result : ℕ → ℕ) : ℕ → ℕ :=
  binarizeLoop size a (level % 256) result

/-- `forward` from `src/geisten.h`: over `m` words (the C `m` counts the
words of the packed arrays), accumulate
`popcount(x[i] & wb[i]) - popcount(x[i] & ~wb[i])`. -/
def forward (m : ℕ) (wb x : ℕ → ℕ) : ℤ :=
  ∑ i ∈ Finset.range m,
    ((popcount64 (x i &&& wb i) : ℤ) - (popcount64 (x i &&& wordNot (wb i)) : ℤ))

/-- `mixin` from `src/geisten.h`: `return bits;` (the perturbation is not
implemented; the input word is returned unchanged, the rate `n01` is
ignored). -/
def mixin (bits : ℕ) (n01 : ℤ) : ℕ := bits

/-- The loop of `backward` from `src/geisten.h` after `n` iterations:
iteration `i` executes `x[i] += BIT2SIGN(wb, i) * y`. -/
def backwardLoop : ℕ → (ℕ → ℕ) → ℤ → (ℕ → ℤ) → (ℕ → ℤ)
  | 0, _, _, x => x
  | n + 1, wb, y, x =>
      let x' := backwardLoop n wb y x
      fun k => if k = n then x' n + bit2sign wb n * y else x' k

/-- `backward` from `src/geisten.h`: run the loop for all `m` indices. -/
def backward (m : ℕ) (wb : ℕ → ℕ) (y : ℤ) (x : ℕ → ℤ) : ℕ → ℤ :=
  backwardLoop m wb y x

/-- The loop of `update_weights_i` from `src/geisten.h` after `n`
iterations: iteration `i` computes
`result = BIT2SIGN(w, i) * alpha - x[i] * delta` against the current
state of `w` and then executes `BINARIZE(w[i/64], i%64, 0, result)`,
i.e. writes bit `i` according to `result > 0`. -/
def updateWeightsLoop : ℕ → (ℕ → ℤ) → ℤ → ℤ → (ℕ → ℕ) → (ℕ → ℕ)
  | 0, _, _, _, w => w
  | n + 1, x, delta, alpha, w =>
      let w' := updateWeightsLoop n x delta alpha w
      writeBit w' n (decide (bit2sign w' n * alpha - x n * delta > 0))

/-- `update_weights_i` from `src/geisten.h` (the mutated weight column;
`update_weights_i8` is the same rule restricted to `int8_t` inputs). -/
def update_weights_i (m : ℕ) (x : ℕ → ℤ) (delta alpha : ℤ) (w : ℕ → ℕ) : ℕ → ℕ :=
  updateWeightsLoop m x delta alpha w

/-- The accumulation loop of `update_activation` from `src/geisten.h`,
with the array read modelled as a checked lookup (`List.get?`) so an
out-of-range read is observable as `none`.  The loop body literally
reads `delta[m]` (the loop bound, not the loop counter); the C loop
counter is declared uninitialized, modelled here as starting at 0, so
`n` iterations remain. -/
def update_activationGo : ℕ → List ℤ → ℕ → Option ℤ
  | 0, _, _ => some 0
  | n + 1, d, m =>
      match update_activationGo n d m, d.get? m with
      | some s, some v => some (s + v)
      | _, _ => none

/-- `update_activation` from `src/geisten.h`:
accumulate `delta_alpha` over the loop, then return
`alpha - rate * delta_alpha / (int)m` (C truncated division).  `none`
signals that some array read was out of range. -/
def update_activation (m : ℕ) (delta : List ℤ) (rate alpha : ℤ) : Option ℤ :=
  match update_activationGo m delta m with
  | some s => some (alpha - (rate * s).tdiv m)
  | none => none

/-- The accumulation loop of `update_rprelu` from `src/geisten.h` after
`n` iterations (the C loop counter is declared uninitialized, modelled
as starting at 0), returning `(delta_beta, delta_gamma, delta_zeta)`:
`delta_beta  += (delta[i] <= gamma) * (delta[i] - gamma)`,
`delta_gamma += -(delta[i] <= gamma) * beta * -(delta[i] > gamma)`,
`delta_zeta  += delta[i]`,
with the C boolean-to-int results modelled as 0/1 integers. -/
def update_rpreluLoop : ℕ → (ℕ → ℤ) → ℤ → ℤ → ℤ × ℤ × ℤ
  | 0, _, _, _ => (0, 0, 0)
  | n + 1, d, beta, gamma =>
      let p := update_rpreluLoop n d beta gamma
      (p.1 + (if d n ≤ gamma then 1 else 0) * (d n - gamma),
       p.2.1 + -(if d n ≤ gamma then (1 : ℤ) else 0) * beta * -(if d n > gamma then (1 : ℤ) else 0),
       p.2.2 + d n)

/-- `update_rprelu` from `src/geisten.h`: accumulate the three sums, then
`beta  -= rate * delta_beta / m`, `gamma -= rate * delta_gamma / m`,
`zeta -= rate * delta_zeta / m` (C truncated division), returning the
updated `(beta, gamma, zeta)`. -/
def update_rprelu (m : ℕ) (d : ℕ → ℤ) (rate beta gamma zeta : ℤ) : ℤ × ℤ × ℤ :=
  let p := update_rpreluLoop m d beta gamma
  (beta - (rate * p.1).tdiv m, gamma - (rate * p.2.1).tdiv m, zeta - (rate * p.2.2).tdiv m)

/-- Modelled from the spec's words (for comparison with `forward`, not
from the source): the signed dot product of the two logical ±1 vectors
of length `m` stored in the packed bit vectors `x` and `w` — the sum
over `i < m` of `sign(x_i) * sign(w_i)` where a set bit has sign `+1`
and a clear bit has sign `-1`. -/
def specSignedDot (m : ℕ) (x w : ℕ → ℕ) : ℤ :=
  ∑ i ∈ Finset.range m,
    (if bitTestArray x i then (1 : ℤ) else -1) * (if bitTestArray w i then (1 : ℤ) else -1)

lemma testBit_setBit64 (w off b : ℕ) :
    (setBit64 w off).testBit b = (w.testBit b || decide (off = b)) := by
  simp [setBit64, Nat.testBit_or, Nat.shiftLeft_eq, Nat.testBit_two_pow]

lemma testBit_ones64 (b : ℕ) (hb : b < 64) : Nat.testBit (2 ^ 64 - 1) b = true := by
  rw [Nat.testBit_two_pow_sub_one]
  simpa using hb

lemma testBit_clearBit64 (w off b : ℕ) (hb : b < 64) :
    (clearBit64 w off).testBit b = (w.testBit b && !decide (off = b)) := by
  unfold clearBit64 wordNot
  rw [Nat.testBit_and, Nat.testBit_xor, testBit_ones64 b hb, Nat.shiftLeft_eq, one_mul,
    Nat.testBit_two_pow]
  simp [Bool.xor_true]

lemma writeBit_testBit_same (r : ℕ → ℕ) (i : ℕ) (v : Bool) :
    (writeBit r i v (i / 64)).testBit (i % 64) = v := by
  have h64 : i % 64 < 64 := Nat.mod_lt i (by norm_num)
  cases v <;> simp [writeBit, testBit_setBit64, testBit_clearBit64, h64]

lemma writeBit_testBit_other (r : ℕ → ℕ) (i : ℕ) (v : Bool) (j : ℕ) (h : j ≠ i) :
    (writeBit r i v (j / 64)).testBit (j % 64) = (r (j / 64)).testBit (j % 64) := by
  have h64 : j % 64 < 64 := Nat.mod_lt j (by norm_num)
  unfold writeBit
  by_cases hw : j / 64 = i / 64
  · have hoff : ¬ i % 64 = j % 64 := by
      intro he
      exact h (by omega)
    cases v <;> simp [hw, testBit_setBit64, testBit_clearBit64, h64, hoff]
  · simp [hw]

lemma popcountAux_eq_sum (k : ℕ) :
    ∀ w, popcountAux k w = ∑ b ∈ Finset.range k, (if w.testBit b then 1 else 0) := by
  induction k with
  | zero => simp [popcountAux]
  | succ k ih =>
    intro w
    rw [popcountAux, Finset.sum_range_succ', ih (w / 2)]
    have h0 : (if w.testBit 0 then 1 else 0) = w % 2 := by
      rw [Nat.testBit_zero]
      rcases Nat.mod_two_eq_zero_or_one w with h | h <;> simp [h]
    have hs : ∀ b, (if w.testBit (b + 1) then 1 else 0) = (if (w / 2).testBit b then 1 else 0) := by
      intro b
      rw [Nat.testBit_succ]
    simp only [hs, h0]
    omega

lemma popcount_word_sub (x w : ℕ) :
    (popcount64 (x &&& w) : ℤ) - (popcount64 (x &&& wordNot w) : ℤ) =
      ∑ b ∈ Finset.range 64, (if x.testBit b then (if w.testBit b then (1 : ℤ) else -1) else 0) := by
  unfold popcount64 wordNot
  rw [popcountAux_eq_sum, popcountAux_eq_sum]
  push_cast
  rw [← Finset.sum_sub_distrib]
  apply Finset.sum_congr rfl
  intro b hb
  have hb64 : b < 64 := Finset.mem_range.mp hb
  have hones : Nat.testBit 18446744073709551615 b = true := by
    have he : (18446744073709551615 : ℕ) = 2 ^ 64 - 1 := by norm_num
    rw [he]
    exact testBit_ones64 b hb64
  rw [Nat.testBit_and, Nat.testBit_and, Nat.testBit_xor, hones]
  cases hx : x.testBit b <;> cases hw : w.testBit b <;> simp

lemma binarizeLoop_testBit (size : ℕ) (a : ℕ → ℤ) (t : ℤ) (r : ℕ → ℕ) (i : ℕ)
    (hi : i < size) :
    (binarizeLoop size a t r (i / 64)).testBit (i % 64) = decide (a i > t) := by
  induction size with
  | zero => omega
  | succ n ih =>
    simp only [binarizeLoop]
    by_cases hin : i = n
    · subst hin
      exact writeBit_testBit_same _ _ _
    · rw [writeBit_testBit_other _ _ _ _ hin]
      exact ih (by omega)

lemma updateWeightsLoop_testBit_ge (n : ℕ) (x : ℕ → ℤ) (delta alpha : ℤ) (w : ℕ → ℕ)
    (i : ℕ) (h : n ≤ i) :
    (updateWeightsLoop n x delta alpha w (i / 64)).testBit (i % 64) =
      (w (i / 64)).testBit (i % 64) := by
  induction n with
  | zero => rfl
  | succ k ih =>
    simp only [updateWeightsLoop]
    rw [writeBit_testBit_other _ _ _ _ (by omega)]
    exact ih (by omega)

lemma updateWeightsLoop_testBit_lt (m : ℕ) (x : ℕ → ℤ) (delta alpha : ℤ) (w : ℕ → ℕ)
    (i : ℕ) (hi : i < m) :
    (updateWeightsLoop m x delta alpha w (i / 64)).testBit (i % 64) =
      decide (bit2sign w i * alpha - x i * delta > 0) := by
  induction m with
  | zero => omega
  | succ n ih =>
    simp only [updateWeightsLoop]
    by_cases hin : i = n
    · subst hin
      rw [writeBit_testBit_same]
      have hpre : bitTestArray (updateWeightsLoop i x delta alpha w) i = bitTestArray w i := by
        unfold bitTestArray
        exact updateWeightsLoop_testBit_ge i x delta alpha w i (le_refl i)
      simp only [bit2sign, hpre]
    · rw [writeBit_testBit_other _ _ _ _ hin]
      exact ih (by omega)

lemma update_rpreluLoop_gamma_zero (n : ℕ) (d : ℕ → ℤ) (beta gamma : ℤ) :
    (update_rpreluLoop n d beta gamma).2.1 = 0 := by
  induction n with
  | zero => rfl
  | succ k ih =>
    simp only [update_rpreluLoop]
    by_cases h : d k ≤ gamma
    · have h2 : ¬ d k > gamma := by omega
      simp [h, h2, ih]
    · have h2 : d k > gamma := by omega
      simp [h, h2, ih]

/-- C1 (counterexample): `forward` does not compute the signed dot
product of the two logical ±1 vectors.  At logical length 1 with both
packed vectors all-zero (both logical vectors `[-1]`), the claimed dot
product is `(-1) * (-1) = 1`, but `forward` returns 0 because positions
whose input bit is clear contribute nothing. -/
theorem forward_dot_counterexample :
    forward 1 (fun _ => 0) (fun _ => 0) = 0 ∧
      specSignedDot 1 (fun _ => 0) (fun _ => 0) = 1 := by
  constructor <;> decide

/-- C1 (amended): `forward m wb x` (`m` counting words) equals the sum
over every word `i < m` and bit position `b < 64` of: `+1` where both
the input bit and the weight bit are set, `-1` where the input bit is
set and the weight bit is clear, and `0` where the input bit is clear —
i.e. only set input bits contribute, with the sign of the weight bit. -/
theorem forward_eq_signed_sum (m : ℕ) (wb x : ℕ → ℕ) :
    forward m wb x =
      ∑ i ∈ Finset.range m, ∑ b ∈ Finset.range 64,
        (if (x i).testBit b then (if (wb i).testBit b then (1 : ℤ) else -1) else 0) := by
  unfold forward
  apply Finset.sum_congr rfl
  intro i _
  exact popcount_word_sub (x i) (wb i)

/-- C2: `popcount_soft` does not agree with the hardware
`__builtin_popcountll` on all 64-bit words: its `unsigned` parameter
truncates the argument to 32 bits, so on the word `2 ^ 32` the software
path counts 0 set bits while the hardware popcount counts 1. -/
theorem popcount_soft_trunc_eval :
    popcount_soft (2 ^ 32) = 0 ∧ popcount64 (2 ^ 32) = 1 := by
  constructor
  · show popcount_soft_loop (2 ^ 32 % 2 ^ 32) = 0
    have h : (2 ^ 32 : ℕ) % 2 ^ 32 = 0 := Nat.mod_self _
    rw [h, popcount_soft_loop]
    simp
  · decide

/-- C3: after `binarize(size, a, t, result)` with a threshold `t` in the
range of the `uint8_t` parameter, bit `i` of the packed result (bit
`i % 64` of word `i / 64`) is set exactly when `a i > t`; in particular
`a i = t` leaves the bit clear (strict greater-than). -/
theorem binarize_bit_spec (size : ℕ) (a : ℕ → ℤ) (t : ℤ) (r : ℕ → ℕ) (i : ℕ)
    (hi : i < size) (h0 : 0 ≤ t) (h1 : t < 256) :
    (binarize size a t r (i / 64)).testBit (i % 64) = decide (a i > t) := by
  unfold binarize
  rw [Int.emod_eq_of_lt h0 h1]
  exact binarizeLoop_testBit size a t r i hi

/-- Witness for C3 at a concrete input: binarizing `[5, 2]` against
threshold 2 sets bit 0 (since `5 > 2`). -/
theorem binarize_bit_spec_witness :
    (binarize 2 (fun k => if k = 0 then 5 else 2) 2 (fun _ => 0) (0 / 64)).testBit (0 % 64) =
      true := by
  have h := binarize_bit_spec 2 (fun k => if k = 0 then 5 else 2) 2 (fun _ => 0) 0
    (by decide) (by decide) (by decide)
  simpa using h

/-- C4: binarizing the all-positive vector `[1]` against threshold `-1`
does NOT set the bits: the `uint8_t` level parameter converts `-1` to
255, `1 > 255` is false, and bit 0 of the result is cleared. -/
theorem binarize_neg_threshold_eval :
    (binarize 1 (fun _ => 1) (-1) (fun _ => 0) 0).testBit 0 = false := by decide

/-- C5: `backward m wb y x` adds `sign_i * y` to `x i` for every
`i < m`, where `sign_i` is `+1` for a set weight bit and `-1` for a
clear one, and leaves every other entry of `x` unchanged. -/
theorem backward_spec (m : ℕ) (wb : ℕ → ℕ) (y : ℤ) (x : ℕ → ℤ) (i : ℕ) :
    backward m wb y x i =
      if i < m then x i + (if bitTestArray wb i then 1 else -1) * y else x i := by
  unfold backward
  induction m with
  | zero => simp [backwardLoop]
  | succ n ih =>
    simp only [backwardLoop]
    by_cases hin : i = n
    · subst hin
      have hlt : i < i + 1 := by omega
      have hni : ¬ i < i := by omega
      rw [if_pos rfl, if_pos hlt, ih, if_neg hni]
      cases hb : bitTestArray wb i <;> simp [bit2sign, hb]
    · rw [if_neg hin, ih]
      by_cases hn : i < n
      · rw [if_pos hn, if_pos (show i < n + 1 by omega)]
      · rw [if_neg hn, if_neg (show ¬ i < n + 1 by omega)]

/-- C6: `update_weights_i` re-binarizes every weight bit `i < m` to 1
exactly when `sign_i * alpha - x i * delta > 0`, where `sign_i` is the
±1 sign of the pre-update weight bit `i`; and the concrete scenario from
the repository's test: updating weight column `{9}` with input
`[13, 9, 127, 6, 3]`, delta 20 and learning rate 103 yields column
`{0}`. -/
theorem update_weights_i_spec :
    (∀ (m : ℕ) (x : ℕ → ℤ) (delta alpha : ℤ) (w : ℕ → ℕ) (i : ℕ), i < m →
        (update_weights_i m x delta alpha w (i / 64)).testBit (i % 64) =
          decide (bit2sign w i * alpha - x i * delta > 0)) ∧
    update_weights_i 5 (fun k => [13, 9, 127, 6, 3].getD k 0) 20 103 (fun _ => 9) 0 = 0 := by
  constructor
  · intro m x delta alpha w i hi
    exact updateWeightsLoop_testBit_lt m x delta alpha w i hi
  · decide

/-- Witness for C6 at a concrete input: with `m = 1`, input `[2]`,
delta 1, rate 1 and the all-zero weight column, bit 0 ends up clear
(`-1 * 1 - 2 * 1 = -3` is not positive). -/
theorem update_weights_i_spec_witness :
    (update_weights_i 1 (fun _ => 2) 1 1 (fun _ => 0) (0 / 64)).testBit (0 % 64) = false := by
  have h := update_weights_i_spec.1 1 (fun _ => 2) 1 1 (fun _ => 0) 0 (by decide)
  rw [h]
  decide

/-- C7: the `rprelu` activation equals
`(x - gamma) * (beta if x ≤ gamma else 1) + zeta`, its derivative equals
`1 if x > gamma else beta`, and the two concrete scenarios
`rprelu 0 1 2 3 = 1` and `rprelu 3 3 2 3 = 4` hold. -/
theorem rprelu_spec :
    (∀ x beta gamma zeta : ℤ,
        rprelu x beta gamma zeta = (x - gamma) * (if x ≤ gamma then beta else 1) + zeta) ∧
    (∀ x beta gamma : ℤ, rprelu_derived x beta gamma = if x > gamma then 1 else beta) ∧
    rprelu 0 1 2 3 = 1 ∧ rprelu 3 3 2 3 = 4 := by
  refine ⟨?_, ?_, by decide, by decide⟩
  · intro x beta gamma zeta
    unfold rprelu
    by_cases h : x ≤ gamma
    · have h2 : ¬ x > gamma := by omega
      simp [h, h2]
    · have h2 : x > gamma := by omega
      simp [h, h2]
  · intro x beta gamma
    unfold rprelu_derived
    by_cases h : x ≤ gamma
    · have h2 : ¬ x > gamma := by omega
      simp [h, h2]
    · have h2 : x > gamma := by omega
      simp [h, h2]

/-- C8: `update_rprelu` never changes `gamma`, for any arguments: the
`delta_gamma` accumulator multiplies the mutually exclusive indicators
`delta[i] <= gamma` and `delta[i] > gamma`, so it is always 0 — the
level parameter is not adjusted by the claimed gradient component. -/
theorem update_rprelu_gamma_unchanged (m : ℕ) (d : ℕ → ℤ) (rate beta gamma zeta : ℤ) :
    (update_rprelu m d rate beta gamma zeta).2.1 = gamma := by
  unfold update_rprelu
  simp only [update_rpreluLoop_gamma_zero, mul_zero, Int.zero_tdiv, sub_zero]

/-- C9: with any non-positive rate, `mixin` never increases the
population count of the word (it returns the word unchanged). -/
theorem mixin_popcount_le (w : ℕ) (rate : ℤ) (h : rate ≤ 0) :
    popcount64 (mixin w rate) ≤ popcount64 w :=
  Nat.le_refl _

/-- Witness for C9 at a concrete input: word 7, rate `-2`. -/
theorem mixin_popcount_le_witness :
    (-2 : ℤ) ≤ 0 ∧ popcount64 (mixin 7 (-2)) ≤ popcount64 7 :=
  ⟨by decide, mixin_popcount_le 7 (-2) (by decide)⟩

/-- C10: `update_activation` performs an out-of-range array read: with
`m = 1` and the one-element error vector `[5]`, its loop body reads
`delta[m] = delta[1]`, one past the valid range `[0, m)`, so the checked
embedding takes the error branch. -/
theorem update_activation_oob : update_activation 1 [5] 2 3 = none := by decide
